/-
Verification of the CMg dashboard repository (cmg_dashboard.py, fetch_data.py).

The development shallowly embeds the data-processing core of the two Python
files:
  * the paginated HTTP fetch clients `fetch_paginated` (fetch_data.py) and
    `fetch_all_pages` (cmg_dashboard.py), modelled as functions consuming a
    script of request outcomes;
  * the series-alignment routine `preparar_comparacion` (cmg_dashboard.py),
    with pandas `resample("1h").mean()` modelled exactly (a row for every
    hour bin between the floored first and last sample, `none` standing for
    NaN in empty bins) and `pd.merge(..., how="inner")` modelled as the list
    of all key-matching pairs;
  * the storage merge `actualizar_csv` (fetch_data.py): concatenation,
    `drop_duplicates(keep="last")` on the (datetime, station) key, sort by
    the key, and pruning of records older than the retention horizon;
  * the fuzzy station matcher `encontrar_barra` and the row filter of
    `fetch_online` (fetch_data.py).
Numeric cost values are modelled as rationals (real-valued semantics of the
pandas arithmetic); NaN-producing operations are modelled with `Option`.
Timestamps are integers counting minutes.
-/
import Mathlib

/-! ### Paginated fetch clients

`fetch_paginated` (fetch_data.py lines 48-85) and `fetch_all_pages`
(cmg_dashboard.py lines 63-114) issue one HTTP request per loop iteration.
We model the network as a script: the list of outcomes of the successive
requests, in order.  An `ok` response carries the parsed `data` list, or
`none` when the body is not valid JSON; `httpErr s` is a response whose
`raise_for_status()` raises `HTTPError` with status `s`; `connErr` is a
`RequestException` (connection failure).  An exhausted script behaves as a
connection failure (the network is gone). -/

inductive Resp (α : Type) where
  | ok (body : Option (List α))
  | httpErr (status : Nat)
  | connErr
deriving DecidableEq

/-- Result of `fetch_paginated`: either a normally returned record list or an
uncaught Python exception propagating to the caller. -/
inductive FetchOutcome (α : Type) where
  | returned (recs : List α)
  | raised
deriving DecidableEq

/-- fetch_data.py `fetch_paginated`, lines 48-85.  `att` is the index
`intento` of the current attempt for the current page (`enumerate([0] +
BACKOFF)` gives attempts 0..3, `len(BACKOFF) = 3`).  Every `HTTPError` is
retried until `intento == len(BACKOFF)`, when the accumulated records are
returned; a `RequestException` returns the accumulation at once.  After a
successful response, `r.json()` is called OUTSIDE the try block (line 76),
so a non-JSON body raises to the caller.  An empty `data` list ends the
page loop; a short page returns after extending; otherwise the next page is
fetched with the attempt counter reset. -/
def fetchPaginatedGo (pageSize : Nat) {α : Type} :
    List (Resp α) → List α → Nat → FetchOutcome α
  | [], acc, _ => .returned acc
  | .connErr :: _, acc, _ => .returned acc
  | .httpErr _ :: rest, acc, att =>
      if att = 3 then .returned acc else fetchPaginatedGo pageSize rest acc (att + 1)
  | .ok none :: _, _, _ => .raised
  | .ok (some records) :: rest, acc, _ =>
      if records.isEmpty then .returned acc
      else if records.length < pageSize then .returned (acc ++ records)
      else fetchPaginatedGo pageSize rest (acc ++ records) 0

/-- fetch_data.py `fetch_paginated` entry point: page 1, empty accumulator,
first attempt, default `page_size = 500`. -/
def fetch_paginated {α : Type} (script : List (Resp α)) : FetchOutcome α :=
  fetchPaginatedGo 500 script [] 0

/-- cmg_dashboard.py `fetch_all_pages`, lines 63-114.  `MAX_RETRIES = 3`
attempts indexed 0..2; an `HTTPError` is retried only when its status is
exactly 500 and `intento < MAX_RETRIES - 1`, otherwise `st.error` is shown
and the accumulation returned.  `RequestException` returns the accumulation.
`response.json()` is wrapped in try/except (lines 97-101): a non-JSON body
returns the accumulation.  No path raises, so the result is a plain list. -/
def fetchAllPagesGo (pageSize : Nat) {α : Type} :
    List (Resp α) → List α → Nat → List α
  | [], acc, _ => acc
  | .connErr :: _, acc, _ => acc
  | .httpErr s :: rest, acc, att =>
      if s = 500 ∧ att < 2 then fetchAllPagesGo pageSize rest acc (att + 1) else acc
  | .ok none :: _, acc, _ => acc
  | .ok (some records) :: rest, acc, _ =>
      if records.isEmpty then acc
      else if records.length < pageSize then acc ++ records
      else fetchAllPagesGo pageSize rest (acc ++ records) 0

/-- cmg_dashboard.py `fetch_all_pages` entry point: default
`page_size = 100`. -/
def fetch_all_pages {α : Type} (script : List (Resp α)) : List α :=
  fetchAllPagesGo 100 script [] 0

/-- C4, counterexample.  The claim says any HTTP 5xx status is retried by
both clients.  In `fetch_all_pages` a 502 is NOT retried: on the script
[502, 200 with one record] it aborts at once and returns `[]`, while the
same script with a 500 is retried and yields the record.  So the claim, as
stated, is false at this input. -/
theorem c4_counterexample :
    fetch_all_pages [Resp.httpErr 502, Resp.ok (some [0])] = ([] : List Nat) ∧
    fetch_all_pages [Resp.httpErr 500, Resp.ok (some [0])] = [0] ∧
    ([] : List Nat) ≠ [0] := by
  refine ⟨rfl, rfl, by decide⟩

/-- C4, amended.  `fetch_paginated` retries any failed HTTP request (5xx
included) with a backoff wait, up to 4 attempts, and on exhaustion returns
the accumulated records without raising; `fetch_all_pages` retries only
status exactly 500, up to 3 attempts, and on exhaustion (or on any other
5xx status, at once) returns the accumulated records. -/
theorem c4_retry_behaviour {α : Type} (ps : Nat) (rest : List (Resp α))
    (acc : List α) (att s : Nat) (h5 : 500 ≤ s) (h5' : s ≤ 599) :
    (fetchPaginatedGo ps (.httpErr s :: rest) acc att =
      if att = 3 then .returned acc else fetchPaginatedGo ps rest acc (att + 1)) ∧
    (fetchAllPagesGo ps (.httpErr s :: rest) acc att =
      if s = 500 ∧ att < 2 then fetchAllPagesGo ps rest acc (att + 1) else acc) ∧
    fetchPaginatedGo ps (List.replicate 4 (Resp.httpErr s)) acc 0 = .returned acc ∧
    fetchAllPagesGo ps (List.replicate 3 (Resp.httpErr 500)) acc 0 = acc := by
  refine ⟨rfl, rfl, ?_, ?_⟩
  · simp only [List.replicate, fetchPaginatedGo]
    norm_num [fetchPaginatedGo]
  · simp only [List.replicate, fetchAllPagesGo]
    norm_num [fetchAllPagesGo]

/-- C4, witness for the amended theorem at status 503. -/
theorem c4_retry_behaviour_witness :
    fetchPaginatedGo 500 ([.httpErr 503] : List (Resp Nat)) [7] 3 =
        .returned [7] ∧
    fetchAllPagesGo 100 ([.httpErr 503] : List (Resp Nat)) [7] 0 = [7] := by
  have h := c4_retry_behaviour (α := Nat) 500 [] [7] 3 503 (by decide) (by decide)
  have h2 := c4_retry_behaviour (α := Nat) 100 [] [7] 0 503 (by decide) (by decide)
  refine ⟨?_, ?_⟩
  · have := h.1
    simpa using this
  · have := h2.2.1
    simpa using this

/-- C5, counterexample.  The claim says a non-5xx HTTP error aborts the
fetch immediately without retrying that page.  `fetch_paginated` retries a
404 exactly like a 5xx: on the script [404, 200 with record 7] it retries,
succeeds, and returns `[7]` — not the empty accumulation an immediate abort
would return. -/
theorem c5_counterexample :
    fetch_paginated [Resp.httpErr 404, Resp.ok (some [7])] =
        FetchOutcome.returned [7] ∧
    FetchOutcome.returned [7] ≠ FetchOutcome.returned ([] : List Nat) := by
  refine ⟨rfl, by decide⟩

/-- C5, amended.  A connection failure aborts immediately in both clients,
returning the partial accumulation without raising.  A non-5xx HTTP error
aborts immediately only in `fetch_all_pages` (any status other than 500);
`fetch_paginated` treats it like every HTTP error: it is retried with
backoff, and only after the attempts are exhausted is the partial
accumulation returned. -/
theorem c5_abort_behaviour {α : Type} (ps : Nat) (rest : List (Resp α))
    (acc : List α) (att s : Nat) (h : s < 500) :
    fetchPaginatedGo ps (.connErr :: rest) acc att = .returned acc ∧
    fetchAllPagesGo ps (.connErr :: rest) acc att = acc ∧
    fetchAllPagesGo ps (.httpErr s :: rest) acc att = acc ∧
    (fetchPaginatedGo ps (.httpErr s :: rest) acc att =
      if att = 3 then .returned acc else fetchPaginatedGo ps rest acc (att + 1)) := by
  refine ⟨rfl, rfl, ?_, rfl⟩
  have hs : ¬(s = 500 ∧ att < 2) := by
    rintro ⟨rfl, -⟩
    exact absurd h (by decide)
  simp [fetchAllPagesGo, hs]

/-- C5, witness for the amended theorem at status 404. -/
theorem c5_abort_behaviour_witness :
    fetchAllPagesGo 100 ([.httpErr 404] : List (Resp Nat)) [7] 0 = [7] := by
  exact (c5_abort_behaviour (α := Nat) 100 [] [7] 0 404 (by decide)).2.2.1

/-- C6, counterexample.  The claim says a non-JSON body makes the client
return the records accumulated so far without raising.  In
`fetch_paginated`, `r.json()` is called outside the try block (fetch_data.py
line 76), so the decode error propagates to the caller: on the script
[valid full page of 500 records, non-JSON body] the outcome is an uncaught
exception, not a returned list. -/
theorem c6_counterexample :
    fetch_paginated [Resp.ok (some (List.replicate 500 0)), Resp.ok none] =
        (FetchOutcome.raised : FetchOutcome Nat) ∧
    (FetchOutcome.raised : FetchOutcome Nat) ≠
        FetchOutcome.returned (List.replicate 500 0) := by
  constructor
  · show fetchPaginatedGo 500 _ [] 0 = _
    rw [fetchPaginatedGo]
    norm_num [fetchPaginatedGo]
  · decide

/-- C6, amended.  `fetch_all_pages` treats a non-JSON body as a hard fetch
failure for that page and returns the accumulated records without raising;
`fetch_paginated`, however, propagates the JSON decode exception to its
caller and the accumulation is lost.  Neither attempts a partial parse. -/
theorem c6_badjson_behaviour {α : Type} (ps : Nat) (rest : List (Resp α))
    (acc : List α) (att : Nat) :
    fetchAllPagesGo ps (.ok none :: rest) acc att = acc ∧
    fetchPaginatedGo ps (.ok none :: rest) acc att = .raised :=
  ⟨rfl, rfl⟩

/-! ### Series alignment (`preparar_comparacion`, cmg_dashboard.py 190-224)

Timestamps are natural numbers counting minutes; a 15-minute Online sample
at 10:15 has `dt = 615`.  Cost values are rationals.  pandas
`resample("1h").mean()` over a DatetimeIndex produces one labelled row for
EVERY hour bin from the floored earliest to the floored latest index value,
with NaN (here `none`) as the mean of an empty bin; `reset_index()` keeps
those rows.  `pd.merge(..., on="datetime", how="inner")` produces one row
per key-matching pair of input rows. -/

/-- One CMg Online row after `fetch_cmg_online`: `datetime`, `barra_online`,
`cmg_real` (cmg_dashboard.py lines 134-152). -/
structure OnlineRow where
  dt : Nat
  barra : String
  cmg : ℚ
deriving DecidableEq

/-- One CMg Programado row after `fetch_cmg_programado`: `datetime`,
`barra_prog`, `cmg_programado` (cmg_dashboard.py lines 167-183). -/
structure ProgRow where
  dt : Nat
  barra : String
  cmg : ℚ
deriving DecidableEq

/-- One row of the merged output of `preparar_comparacion`.  A `none` in an
Option-valued column is pandas NaN. -/
structure MergedRow where
  dt : Nat
  cmg_real : Option ℚ
  cmg_programado : ℚ
  diferencia : Option ℚ
  diferencia_pct : Option ℚ
deriving DecidableEq

/-- `.dt.floor("1h")` on a minute-valued timestamp. -/
def floorH (t : Nat) : Nat := t / 60 * 60

/-- The dashboard's station dictionary `BARRAS` (cmg_dashboard.py 38-47),
in insertion order: Online key `barra_transf` to Programado key
`llave_cmg`. -/
def BARRAS_DASH : List (String × String) :=
  [("P.MONTT_______220", "PMontt220"),
   ("A.JAHUEL______220", "AJahuel220"),
   ("POLPAICO______220", "Polpaico220"),
   ("P.AZUCAR______220", "PAzucar220"),
   ("CARDONES______220", "Cardones220"),
   ("QUILLOTA______220", "Quillota220"),
   ("CRUCERO_______220", "Crucero220"),
   ("CHARRUA_______220", "Charrua220")]

/-- `BARRAS[barra_online]` (cmg_dashboard.py line 199); the dashboard only
evaluates it on dictionary keys, where the default is never used. -/
def barraProgDe (b : String) : String := ((BARRAS_DASH.lookup b).getD "")

/-- The arithmetic mean of a list of rationals. -/
def meanQ (l : List ℚ) : ℚ := l.sum / l.length

/-- The Online samples of station `b` falling in the hour bin `h`: filter by
`barra_online`, then keep the rows whose floored timestamp is `h`, and take
their `cmg_real` values. -/
def bucketReal (dfReal : List OnlineRow) (b : String) (h : Nat) : List ℚ :=
  (((dfReal.filter (fun r => r.barra == b)).filter
      (fun r => floorH r.dt == h)).map (fun r => r.cmg))


/-- One labelled row of the `resample("1h").mean()` output: the hour label
and the mean of the samples of `f` falling in that bin (`none` = NaN for an
empty bin). -/
def hourBin (f : List OnlineRow) (h : Nat) : Nat × Option ℚ :=
  let vals := (f.filter (fun r => floorH r.dt == h)).map (fun r => r.cmg)
  (h, if vals.isEmpty then none else some (meanQ vals))

/-- The bins of `resample("1h")` on the station-filtered frame `f` whose
floored timestamps are `hs`: one bin per hour from the smallest to the
largest floored timestamp; the empty frame resamples to the empty frame. -/
def hourlyRealAux (f : List OnlineRow) : List Nat → List (Nat × Option ℚ)
  | [] => []
  | h0 :: hs =>
    (List.range ((hs.foldl Nat.max h0 - hs.foldl Nat.min h0) / 60 + 1)).map
      (fun i => hourBin f (hs.foldl Nat.min h0 + 60 * i))

/-- cmg_dashboard.py lines 202-209: filter the Online frame by
`barra_online`, set the datetime index, `resample("1h").mean()`,
`reset_index()`, then floor the (already hour-aligned) labels.  The result
is the list of (hour label, mean) pairs, one for every hour bin between the
floored earliest and floored latest sample, `none` for an empty bin. -/
def hourlyReal (dfReal : List OnlineRow) (b : String) : List (Nat × Option ℚ) :=
  let f := dfReal.filter (fun r => r.barra == b)
  hourlyRealAux f (f.map (fun r => floorH r.dt))

/-- cmg_dashboard.py lines 212-216: filter the Programado frame by
`barra_prog` and floor the timestamps to the hour. -/
def progF (dfProg : List ProgRow) (bp : String) : List ProgRow :=
  (dfProg.filter (fun p => p.barra == bp)).map
    (fun p => { p with dt := floorH p.dt })

/-- pandas `replace(0, float("nan"))` on the `cmg_programado` column. -/
def replace0 (x : ℚ) : Option ℚ := if x = 0 then none else some x

/-- NaN-propagating division of the pandas column arithmetic. -/
def nanDiv (a b : Option ℚ) : Option ℚ :=
  a.bind (fun x => b.map (fun y => x / y))

/-- Building one merged row (cmg_dashboard.py lines 219-223):
`diferencia = cmg_real - cmg_programado` and
`diferencia_pct = diferencia / cmg_programado.replace(0, nan) * 100`,
each computed with NaN propagation. -/
def mkMergedRow (h : Nat) (real : Option ℚ) (prog : ℚ) : MergedRow :=
  let dif := real.map (fun x => x - prog)
  { dt := h, cmg_real := real, cmg_programado := prog,
    diferencia := dif,
    diferencia_pct := (nanDiv dif (replace0 prog)).map (fun x => x * 100) }

/-- cmg_dashboard.py `preparar_comparacion`, lines 190-224: hourly-average
the Online series of the station, filter/floor the Programado series of the
mapped station, inner-join on the hour, compute the difference columns. -/
def preparar_comparacion (dfReal : List OnlineRow) (dfProg : List ProgRow)
    (b : String) : List MergedRow :=
  let real := hourlyReal dfReal b
  let prog := progF dfProg (barraProgDe b)
  real.flatMap (fun rv =>
    (prog.filter (fun p => p.dt == rv.1)).map
      (fun p => mkMergedRow rv.1 rv.2 p.cmg))

/-- Every pair produced by `hourlyReal` carries the mean of its bucket, or
`none` when the bucket is empty. -/
theorem hourlyRealAux_snd {f : List OnlineRow} {ts : List Nat}
    {h : Nat} {v : Option ℚ} (hm : (h, v) ∈ hourlyRealAux f ts) :
    (h, v) = hourBin f h := by
  cases ts with
  | nil => exact absurd hm (List.not_mem_nil _)
  | cons h0 hs =>
    unfold hourlyRealAux at hm
    simp only [List.mem_map, List.mem_range] at hm
    obtain ⟨i, -, hi⟩ := hm
    have h1 : hs.foldl Nat.min h0 + 60 * i = h := by
      have := congrArg Prod.fst hi
      simpa [hourBin] using this
    rw [← hi, h1]

theorem hourlyReal_snd {dfReal : List OnlineRow} {b : String}
    {h : Nat} {v : Option ℚ} (hm : (h, v) ∈ hourlyReal dfReal b) :
    v = if (bucketReal dfReal b h).isEmpty then none
        else some (meanQ (bucketReal dfReal b h)) := by
  have := hourlyRealAux_snd (hm : (h, v) ∈ hourlyRealAux _ _)
  have h2 := congrArg Prod.snd this
  exact h2

/-- Membership in `preparar_comparacion` decomposes into an hourly Online
pair and a matching filtered Programado row. -/
theorem preparar_mem {dfReal : List OnlineRow} {dfProg : List ProgRow}
    {b : String} {m : MergedRow} (hm : m ∈ preparar_comparacion dfReal dfProg b) :
    ∃ v p, (m.dt, v) ∈ hourlyReal dfReal b ∧
      p ∈ progF dfProg (barraProgDe b) ∧ p.dt = m.dt ∧
      m = mkMergedRow m.dt v p.cmg := by
  unfold preparar_comparacion at hm
  simp only [List.mem_flatMap, List.mem_map, List.mem_filter] at hm
  obtain ⟨⟨h, v⟩, hrv, p, ⟨hp, hpd⟩, hmk⟩ := hm
  have hdt : m.dt = h := by rw [← hmk]; rfl
  have hpd' : p.dt = h := by simpa using hpd
  exact ⟨v, p, by rw [hdt]; exact hrv, hp, by rw [hdt, hpd'],
    by rw [hdt, ← hmk]⟩

/-- C1, counterexample.  Samples for P.MONTT at 10:00 (dt 600) and 12:00
(dt 720) and no sample in hour 11 (dt 660): the claim says the hourly
Online series contains no row for hour 660, but `resample("1h").mean()`
produces a row (660, NaN), and with a Programado row at hour 660 the merged
output contains a row for that empty hour. -/
theorem c1_counterexample :
    (660, (none : Option ℚ)) ∈
        hourlyReal [⟨600, "P.MONTT_______220", 10⟩,
                    ⟨720, "P.MONTT_______220", 30⟩] "P.MONTT_______220" ∧
    bucketReal [⟨600, "P.MONTT_______220", 10⟩,
                ⟨720, "P.MONTT_______220", 30⟩] "P.MONTT_______220" 660 = [] ∧
    (preparar_comparacion
        [⟨600, "P.MONTT_______220", 10⟩, ⟨720, "P.MONTT_______220", 30⟩]
        [⟨660, "PMontt220", 20⟩] "P.MONTT_______220").map
          (fun m => (m.dt, m.cmg_real)) = [(660, none)] := by
  refine ⟨?_, ?_, ?_⟩
  · have : hourlyReal [⟨600, "P.MONTT_______220", 10⟩,
        ⟨720, "P.MONTT_______220", 30⟩] "P.MONTT_______220" =
        [(600, some 10), (660, none), (720, some 30)] := by
      with_unfolding_all rfl
    rw [this]
    simp
  · with_unfolding_all rfl
  · with_unfolding_all rfl

/-- C1, amended.  For every merged row of `preparar_comparacion`: when at
least one Online sample of the station falls in the row's hour, `cmg_real`
is the arithmetic mean of those samples (however many, even fewer than
four); when zero samples fall in the hour, the hourly Online series still
contains a row for it whenever the hour lies between the floored first and
last samples, and the merged row's `cmg_real` is then NaN. -/
theorem c1_hourly_mean {dfReal : List OnlineRow} {dfProg : List ProgRow}
    {b : String} {m : MergedRow}
    (hm : m ∈ preparar_comparacion dfReal dfProg b) :
    (bucketReal dfReal b m.dt ≠ [] →
        m.cmg_real = some (meanQ (bucketReal dfReal b m.dt))) ∧
    (bucketReal dfReal b m.dt = [] → m.cmg_real = none) := by
  obtain ⟨v, p, hrv, -, -, hmk⟩ := preparar_mem hm
  have hreal : m.cmg_real = v := by rw [hmk]; rfl
  have hv := hourlyReal_snd hrv
  constructor
  · intro hne
    rw [hreal, hv, if_neg (by simpa [List.isEmpty_iff] using hne)]
  · intro he
    rw [hreal, hv, if_pos (by simpa [List.isEmpty_iff] using he)]

/-- C1, witness: the scenario of spec §8 — samples [10, 20, 30, 40] in hour
10 (dt 600..645); the merged row's `cmg_real` is their mean 25. -/
theorem c1_hourly_mean_witness :
    (mkMergedRow 600 (some 25) 20).cmg_real =
      some (meanQ (bucketReal
        [⟨600, "P.MONTT_______220", 10⟩, ⟨615, "P.MONTT_______220", 20⟩,
         ⟨630, "P.MONTT_______220", 30⟩, ⟨645, "P.MONTT_______220", 40⟩]
        "P.MONTT_______220" 600)) := by
  have hmem : mkMergedRow 600 (some 25) 20 ∈ preparar_comparacion
      [⟨600, "P.MONTT_______220", 10⟩, ⟨615, "P.MONTT_______220", 20⟩,
       ⟨630, "P.MONTT_______220", 30⟩, ⟨645, "P.MONTT_______220", 40⟩]
      [⟨600, "PMontt220", 20⟩] "P.MONTT_______220" := by
    have : preparar_comparacion
        [⟨600, "P.MONTT_______220", 10⟩, ⟨615, "P.MONTT_______220", 20⟩,
         ⟨630, "P.MONTT_______220", 30⟩, ⟨645, "P.MONTT_______220", 40⟩]
        [⟨600, "PMontt220", 20⟩] "P.MONTT_______220" =
        [mkMergedRow 600 (some 25) 20] := by
      with_unfolding_all rfl
    rw [this]
    simp
  exact (c1_hourly_mean hmem).1 (by with_unfolding_all decide)


/-- Bool test for membership of a number in a list. -/
def hasNat (l : List Nat) (k : Nat) : Bool := l.any (fun x => x == k)

theorem beq_comm_nat (m n : Nat) : (m == n) = (n == m) := by
  by_cases h : m = n
  · simp [h]
  · simp [h, Ne.symm h]

theorem hasNat_iff {l : List Nat} {k : Nat} : hasNat l k = true ↔ k ∈ l := by
  unfold hasNat
  rw [List.any_eq_true]
  constructor
  · rintro ⟨x, hx, hxk⟩
    exact (eq_of_beq hxk) ▸ hx
  · intro hk
    exact ⟨k, hk, by simp⟩

/-- Splitting a filter along two mutually exclusive conditions. -/
theorem length_filter_or_disjoint {α : Type} (p q : α → Bool) (l : List α)
    (h : ∀ a, ¬(p a = true ∧ q a = true)) :
    (l.filter (fun a => p a || q a)).length =
      (l.filter p).length + (l.filter q).length := by
  induction l with
  | nil => rfl
  | cons a t ih =>
    cases hp : p a with
    | true =>
      have hq : q a = false := by
        cases hqa : q a
        · rfl
        · exact absurd ⟨hp, hqa⟩ (h a)
      simp [List.filter_cons, hp, hq, ih]
      omega
    | false =>
      cases hq : q a with
      | true => simp [List.filter_cons, hp, hq, ih]; omega
      | false => simp [List.filter_cons, hp, hq, ih]

/-- Counting the rows of an inner join: when the left keys are distinct,
the number of key-matching pairs is the number of right rows whose key
occurs on the left. -/
theorem length_flatMap_matches {α β : Type} (f : α → Nat) (g : β → Nat)
    (l : List α) (p : List β) (hnd : (l.map f).Nodup) :
    (l.flatMap (fun a => p.filter (fun x => g x == f a))).length =
      (p.filter (fun x => hasNat (l.map f) (g x))).length := by
  induction l with
  | nil => simp [hasNat]
  | cons a t ih =>
    simp only [List.map_cons, List.nodup_cons] at hnd
    rw [List.flatMap_cons, List.length_append, ih hnd.2]
    have hcongr : p.filter (fun x => hasNat (f a :: t.map f) (g x)) =
        p.filter (fun x => (g x == f a) || hasNat (t.map f) (g x)) := by
      apply List.filter_congr
      intro x _
      unfold hasNat
      rw [List.any_cons, beq_comm_nat]
    rw [List.map_cons, hcongr, length_filter_or_disjoint]
    intro x ⟨h1, h2⟩
    have hx : g x = f a := eq_of_beq h1
    exact hnd.1 (hx ▸ hasNat_iff.mp h2)

/-- When the right keys are distinct, at most one right row matches a given
key. -/
theorem length_filter_key_le_one {β : Type} (g : β → Nat) (p : List β)
    (hnd : (p.map g).Nodup) (k : Nat) :
    (p.filter (fun x => g x == k)).length ≤ 1 := by
  induction p with
  | nil => simp
  | cons b t ih =>
    simp only [List.map_cons, List.nodup_cons] at hnd
    cases hgb : (g b == k) with
    | true =>
      have hb : g b = k := eq_of_beq hgb
      have ht : t.filter (fun x => g x == k) = [] := by
        rw [List.filter_eq_nil_iff]
        intro x hx hgx
        exact hnd.1 (by rw [hb, ← eq_of_beq hgx]; exact List.mem_map_of_mem g hx)
      simp [List.filter_cons, hgb, ht]
    | false =>
      simpa [List.filter_cons, hgb] using ih hnd.2

/-- A flatMap whose pieces have at most one element has at most as many
elements as its index list. -/
theorem length_flatMap_le {α β : Type} (F : α → List β) (l : List α)
    (h : ∀ a ∈ l, (F a).length ≤ 1) :
    (l.flatMap F).length ≤ l.length := by
  induction l with
  | nil => simp
  | cons a t ih =>
    rw [List.flatMap_cons, List.length_append, List.length_cons]
    have h1 := h a (List.mem_cons_self a t)
    have h2 := ih (fun x hx => h x (List.mem_cons_of_mem a hx))
    omega

/-- The hour labels produced by the resampling are pairwise distinct. -/
theorem hourlyRealAux_keys_nodup (f : List OnlineRow) (ts : List Nat) :
    ((hourlyRealAux f ts).map Prod.fst).Nodup := by
  cases ts with
  | nil => exact List.nodup_nil
  | cons h0 hs =>
    unfold hourlyRealAux
    rw [List.map_map]
    have he : (Prod.fst ∘ fun i => hourBin f (hs.foldl Nat.min h0 + 60 * i)) =
        (fun i => hs.foldl Nat.min h0 + 60 * i) := rfl
    rw [he]
    exact (List.nodup_range _).map (fun a b h => by omega)

theorem hourlyReal_keys_nodup (dfReal : List OnlineRow) (b : String) :
    ((hourlyReal dfReal b).map Prod.fst).Nodup :=
  hourlyRealAux_keys_nodup _ _

/-- The merged row count equals the count of key-matching pairs between the
hourly Online rows and the filtered Programado rows. -/
theorem preparar_length_eq (dfReal : List OnlineRow) (dfProg : List ProgRow)
    (b : String) :
    (preparar_comparacion dfReal dfProg b).length =
      ((hourlyReal dfReal b).flatMap (fun rv =>
        (progF dfProg (barraProgDe b)).filter (fun p => p.dt == rv.1))).length := by
  unfold preparar_comparacion
  rw [List.length_flatMap, List.length_flatMap]
  congr 1
  apply List.map_congr_left
  intro rv _
  simp

/-- C2, counterexample.  With two Programado rows sharing hour 600 for the
mapped station (duplicate forecast versions), `pd.merge(..., how="inner")`
pairs each with the single hourly Online row: the merged output has 2 rows,
exceeding min(1 hourly row, 2 programmed rows) = 1, so the claimed bound is
false at this input. -/
theorem c2_counterexample :
    (preparar_comparacion [⟨600, "P.MONTT_______220", 10⟩]
        [⟨600, "PMontt220", 20⟩, ⟨600, "PMontt220", 30⟩]
        "P.MONTT_______220").length = 2 ∧
    (hourlyReal [⟨600, "P.MONTT_______220", 10⟩] "P.MONTT_______220").length = 1 ∧
    (progF [⟨600, "PMontt220", 20⟩, ⟨600, "PMontt220", 30⟩] "PMontt220").length = 2 ∧
    ¬(2 ≤ min 1 2) := by
  refine ⟨?_, ?_, ?_, by decide⟩ <;> with_unfolding_all rfl

/-- C2, amended.  Every merged row's hour occurs both among the hourly
Online labels and among the filtered Programado hours, and rows present on
only one side are dropped; the merged row count never exceeds the number of
filtered Programado rows, and it is bounded by min(|hourly Online|,
|filtered Programado|) provided the filtered Programado rows have pairwise
distinct floored hours (the data model's uniqueness invariant); with
duplicate Programado hours the inner join instead pairs every duplicate. -/
theorem c2_strict_inner_join (dfReal : List OnlineRow) (dfProg : List ProgRow)
    (b : String) :
    (∀ m ∈ preparar_comparacion dfReal dfProg b,
        m.dt ∈ (hourlyReal dfReal b).map Prod.fst ∧
        m.dt ∈ (progF dfProg (barraProgDe b)).map (fun p => p.dt)) ∧
    (preparar_comparacion dfReal dfProg b).length ≤
        (progF dfProg (barraProgDe b)).length ∧
    (((progF dfProg (barraProgDe b)).map (fun p => p.dt)).Nodup →
      (preparar_comparacion dfReal dfProg b).length ≤
        min (hourlyReal dfReal b).length (progF dfProg (barraProgDe b)).length) := by
  have hmatch := length_flatMap_matches (fun rv : Nat × Option ℚ => rv.1)
    (fun p : ProgRow => p.dt) (hourlyReal dfReal b) (progF dfProg (barraProgDe b))
    (hourlyReal_keys_nodup dfReal b)
  refine ⟨?_, ?_, ?_⟩
  · intro m hm
    obtain ⟨v, p, hrv, hp, hpd, -⟩ := preparar_mem hm
    constructor
    · exact List.mem_map.mpr ⟨(m.dt, v), hrv, rfl⟩
    · exact List.mem_map.mpr ⟨p, hp, hpd⟩
  · rw [preparar_length_eq, hmatch]
    exact List.length_filter_le _ _
  · intro hnd
    rw [preparar_length_eq]
    refine le_min ?_ ?_
    · refine length_flatMap_le _ _ (fun rv _ => ?_)
      exact length_filter_key_le_one (fun p : ProgRow => p.dt) _ hnd rv.1
    · rw [hmatch]
      exact List.length_filter_le _ _

/-- C2, witness for the amended theorem: one Online sample and one matching
Programado row for P.MONTT; the single merged row's hour occurs on both
sides and the merged length is within the min bound. -/
theorem c2_strict_inner_join_witness :
    (600 ∈ (hourlyReal [⟨600, "P.MONTT_______220", 10⟩]
        "P.MONTT_______220").map Prod.fst) ∧
    (preparar_comparacion [⟨600, "P.MONTT_______220", 10⟩]
        [⟨600, "PMontt220", 20⟩] "P.MONTT_______220").length ≤
      min (hourlyReal [⟨600, "P.MONTT_______220", 10⟩] "P.MONTT_______220").length
        (progF [⟨600, "PMontt220", 20⟩]
          (barraProgDe "P.MONTT_______220")).length := by
  have h := c2_strict_inner_join [⟨600, "P.MONTT_______220", 10⟩]
    [⟨600, "PMontt220", 20⟩] "P.MONTT_______220"
  have hmem : mkMergedRow 600 (some 10) 20 ∈ preparar_comparacion
      [⟨600, "P.MONTT_______220", 10⟩] [⟨600, "PMontt220", 20⟩]
      "P.MONTT_______220" := by
    have he : preparar_comparacion [⟨600, "P.MONTT_______220", 10⟩]
        [⟨600, "PMontt220", 20⟩] "P.MONTT_______220" =
        [mkMergedRow 600 (some 10) 20] := by
      with_unfolding_all rfl
    rw [he]
    simp
  have hdt : (mkMergedRow 600 (some 10) 20).dt = 600 := rfl
  refine ⟨?_, ?_⟩
  · have := (h.1 _ hmem).1
    rwa [hdt] at this
  · refine h.2.2 ?_
    have he2 : (progF [⟨600, "PMontt220", 20⟩] (barraProgDe "P.MONTT_______220")).map
        (fun p => p.dt) = [600] := by
      with_unfolding_all rfl
    rw [he2]
    decide

/-- C3, confirmed.  For every merged row: `diferencia` is exactly
`cmg_real - cmg_programado` (NaN-propagating when `cmg_real` is the NaN of
an empty hour bin); `diferencia_pct` is NaN — not a division error —
whenever `cmg_programado = 0`, and otherwise equals
`diferencia / cmg_programado * 100`. -/
theorem c3_difference_columns {dfReal : List OnlineRow} {dfProg : List ProgRow}
    {b : String} {m : MergedRow}
    (hm : m ∈ preparar_comparacion dfReal dfProg b) :
    m.diferencia = m.cmg_real.map (fun x => x - m.cmg_programado) ∧
    (m.cmg_programado = 0 → m.diferencia_pct = none) ∧
    (m.cmg_programado ≠ 0 →
      m.diferencia_pct = m.diferencia.map (fun d => d / m.cmg_programado * 100)) := by
  obtain ⟨v, p, -, -, -, hmk⟩ := preparar_mem hm
  have hreal : m.cmg_real = v := by rw [hmk]; rfl
  have hprog : m.cmg_programado = p.cmg := by rw [hmk]; rfl
  have hdif : m.diferencia = v.map (fun x => x - p.cmg) := by rw [hmk]; rfl
  have hpct : m.diferencia_pct =
      (nanDiv (v.map (fun x => x - p.cmg)) (replace0 p.cmg)).map (fun x => x * 100) := by
    rw [hmk]; rfl
  refine ⟨?_, ?_, ?_⟩
  · rw [hdif, hreal, hprog]
  · intro h0
    rw [hprog] at h0
    rw [hpct, replace0, if_pos h0]
    cases v <;> rfl
  · intro h0
    rw [hprog] at h0
    rw [hpct, replace0, if_neg h0, hdif, hprog]
    cases v <;> rfl

/-- C3, witness: the spec §8 scenario.  Realized mean 25, programmed 20:
`diferencia = 5` and `diferencia_pct = 25`. -/
theorem c3_difference_columns_witness :
    (mkMergedRow 600 (some 25) 20).diferencia =
        (mkMergedRow 600 (some 25) 20).cmg_real.map
          (fun x => x - (mkMergedRow 600 (some 25) 20).cmg_programado) ∧
    (mkMergedRow 600 (some 25) 20).diferencia = some 5 ∧
    (mkMergedRow 600 (some 25) 20).diferencia_pct = some 25 := by
  have hmem : mkMergedRow 600 (some 25) 20 ∈ preparar_comparacion
      [⟨600, "P.MONTT_______220", 10⟩, ⟨615, "P.MONTT_______220", 20⟩,
       ⟨630, "P.MONTT_______220", 30⟩, ⟨645, "P.MONTT_______220", 40⟩]
      [⟨600, "PMontt220", 20⟩] "P.MONTT_______220" := by
    have he : preparar_comparacion
        [⟨600, "P.MONTT_______220", 10⟩, ⟨615, "P.MONTT_______220", 20⟩,
         ⟨630, "P.MONTT_______220", 30⟩, ⟨645, "P.MONTT_______220", 40⟩]
        [⟨600, "PMontt220", 20⟩] "P.MONTT_______220" =
        [mkMergedRow 600 (some 25) 20] := by
      with_unfolding_all rfl
    rw [he]
    simp
  have h := c3_difference_columns hmem
  refine ⟨h.1, ?_, ?_⟩
  · with_unfolding_all rfl
  · with_unfolding_all rfl

/-! ### Incremental storage (`actualizar_csv`, fetch_data.py 161-193)

A stored record has a `datetime` (minutes, as a signed integer so that
`now - 7 days` never truncates), the station column (`barra_online` or
`barra_prog`, whichever the dataset has) and the cost value.  The merge:
concatenate existing + new, `drop_duplicates(subset=[datetime, station],
keep="last")`, `sort_values` by the same two columns, then drop records
older than `pd.Timestamp.now() - pd.Timedelta(days=DIAS_HISTORICO)`.
`keep="last"` keeps, for each key, the last occurrence, in its original
position relative to the other kept rows. -/

structure Registro where
  dt : Int
  barra : String
  valor : ℚ
deriving DecidableEq

/-- The dedup key `subset_dedup = [col_datetime, station]`
(fetch_data.py 175-179). -/
def keyOf (r : Registro) : Int × String := (r.dt, r.barra)

/-- Does some record of `l` share `r`'s key? -/
def hasKeyIn (l : List Registro) (r : Registro) : Bool :=
  l.any (fun s => decide (keyOf s = keyOf r))

/-- `drop_duplicates(subset=subset_dedup, keep="last")` (fetch_data.py
line 183): a row survives exactly when no later row has its key. -/
def drop_duplicates_last : List Registro → List Registro
  | [] => []
  | r :: rs =>
      if hasKeyIn rs r then drop_duplicates_last rs
      else r :: drop_duplicates_last rs

/-- The lexicographic order of `sort_values(subset_dedup)`. -/
def keyLe (a b : Registro) : Prop :=
  a.dt < b.dt ∨ (a.dt = b.dt ∧ a.barra ≤ b.barra)

/-- Strict version of `keyLe`; on records with distinct keys the two
coincide. -/
def keyLt (a b : Registro) : Prop :=
  a.dt < b.dt ∨ (a.dt = b.dt ∧ a.barra < b.barra)

instance : DecidableRel keyLe := fun a b =>
  inferInstanceAs (Decidable (a.dt < b.dt ∨ (a.dt = b.dt ∧ a.barra ≤ b.barra)))

theorem keyLe_total (a b : Registro) : keyLe a b ∨ keyLe b a := by
  unfold keyLe
  rcases lt_trichotomy a.dt b.dt with h | h | h
  · exact Or.inl (Or.inl h)
  · rcases le_total a.barra b.barra with hb | hb
    · exact Or.inl (Or.inr ⟨h, hb⟩)
    · exact Or.inr (Or.inr ⟨h.symm, hb⟩)
  · exact Or.inr (Or.inl h)

theorem keyLe_trans' (a b c : Registro) :
    keyLe a b → keyLe b c → keyLe a c := by
  unfold keyLe
  rintro (h1 | ⟨e1, l1⟩) (h2 | ⟨e2, l2⟩)
  · exact Or.inl (h1.trans h2)
  · exact Or.inl (e2 ▸ h1)
  · exact Or.inl (e1 ▸ h2)
  · exact Or.inr ⟨e1.trans e2, le_trans l1 l2⟩

instance : IsTotal Registro keyLe := ⟨keyLe_total⟩

instance : IsTrans Registro keyLe := ⟨keyLe_trans'⟩

theorem keyLt_asymm' (a b : Registro) : keyLt a b → keyLt b a → False := by
  unfold keyLt
  rintro (h1 | ⟨e1, l1⟩) (h2 | ⟨e2, l2⟩)
  · exact absurd h2 (lt_asymm h1)
  · exact absurd h1 (by rw [e2]; exact lt_irrefl _)
  · exact absurd h2 (by rw [e1]; exact lt_irrefl _)
  · exact absurd l2 (lt_asymm l1)

theorem keyLe_ne_keyLt {a b : Registro} (hle : keyLe a b)
    (hne : keyOf a ≠ keyOf b) : keyLt a b := by
  unfold keyLe at hle
  unfold keyLt
  rcases hle with h | ⟨e, l⟩
  · exact Or.inl h
  · refine Or.inr ⟨e, lt_of_le_of_ne l (fun hb => hne ?_)⟩
    unfold keyOf
    rw [e, hb]

/-- `sort_values(subset_dedup)` (fetch_data.py line 184): after the dedup
the keys are pairwise distinct, so any sort by the key is deterministic;
insertion sort realises it. -/
def sort_values (l : List Registro) : List Registro :=
  List.insertionSort keyLe l

/-- fetch_data.py line 29. -/
def DIAS_HISTORICO : Int := 7

/-- `pd.Timestamp.now() - pd.Timedelta(days=DIAS_HISTORICO)`
(fetch_data.py line 189), in minutes. -/
def corte (now : Int) : Int := now - DIAS_HISTORICO * 24 * 60

/-- fetch_data.py `actualizar_csv`, lines 161-192, as a function of the
existing stored records, the new batch and the current time: concatenate,
dedup keeping the last occurrence of each (datetime, station) key, sort by
the key, and keep only records with `datetime >= corte`. -/
def actualizar_csv (existente nuevo : List Registro) (now : Int) :
    List Registro :=
  (sort_values (drop_duplicates_last (existente ++ nuevo))).filter
    (fun r => decide (corte now ≤ r.dt))

theorem hasKeyIn_iff {l : List Registro} {r : Registro} :
    hasKeyIn l r = true ↔ ∃ s ∈ l, keyOf s = keyOf r := by
  simp [hasKeyIn, List.any_eq_true]

theorem hasKeyIn_append (xs ys : List Registro) (r : Registro) :
    hasKeyIn (xs ++ ys) r = (hasKeyIn xs r || hasKeyIn ys r) := by
  simp [hasKeyIn, List.any_append]

/-- The dedup of a concatenation: the left part keeps its survivors whose
key is absent from the right part, the right part dedups on its own. -/
theorem drop_duplicates_last_append (X Y : List Registro) :
    drop_duplicates_last (X ++ Y) =
      (drop_duplicates_last X).filter (fun r => !hasKeyIn Y r) ++
        drop_duplicates_last Y := by
  induction X with
  | nil => simp [drop_duplicates_last]
  | cons x xs ih =>
    show drop_duplicates_last (x :: (xs ++ Y)) = _
    simp only [drop_duplicates_last, hasKeyIn_append]
    cases h1 : hasKeyIn xs x with
    | true => simpa [h1] using ih
    | false =>
      cases h2 : hasKeyIn Y x with
      | true => simp [h1, h2, List.filter_cons, ih]
      | false => simp [h1, h2, List.filter_cons, ih]

theorem mem_of_mem_drop_duplicates_last {l : List Registro} {r : Registro}
    (h : r ∈ drop_duplicates_last l) : r ∈ l := by
  induction l with
  | nil => exact absurd h (List.not_mem_nil _)
  | cons x xs ih =>
    unfold drop_duplicates_last at h
    by_cases hk : hasKeyIn xs x = true
    · rw [if_pos hk] at h
      exact List.mem_cons_of_mem x (ih h)
    · rw [if_neg hk] at h
      rcases List.mem_cons.mp h with h | h
      · exact h ▸ List.mem_cons_self x xs
      · exact List.mem_cons_of_mem x (ih h)

/-- After `keep="last"` dedup the keys are pairwise distinct. -/
theorem drop_duplicates_last_pairwise (l : List Registro) :
    (drop_duplicates_last l).Pairwise (fun a b => keyOf a ≠ keyOf b) := by
  induction l with
  | nil => exact List.Pairwise.nil
  | cons x xs ih =>
    unfold drop_duplicates_last
    by_cases hk : hasKeyIn xs x = true
    · rw [if_pos hk]
      exact ih
    · rw [if_neg hk]
      refine List.Pairwise.cons (fun b hb hkey => ?_) ih
      exact hk (hasKeyIn_iff.mpr
        ⟨b, mem_of_mem_drop_duplicates_last hb, hkey.symm⟩)

/-- A list with pairwise distinct keys is unchanged by the dedup. -/
theorem drop_duplicates_last_id {l : List Registro}
    (h : l.Pairwise (fun a b => keyOf a ≠ keyOf b)) :
    drop_duplicates_last l = l := by
  induction l with
  | nil => rfl
  | cons x xs ih =>
    rw [List.pairwise_cons] at h
    unfold drop_duplicates_last
    have hk : hasKeyIn xs x = false := by
      cases hc : hasKeyIn xs x
      · rfl
      · obtain ⟨s, hs, hkey⟩ := hasKeyIn_iff.mp hc
        exact absurd hkey.symm (h.1 s hs)
    rw [hk]
    simp [ih h.2]

/-- Two permuted lists that are both strictly sorted by the key are
equal. -/
theorem eq_of_perm_of_pairwise_keyLt :
    ∀ {l₁ l₂ : List Registro}, l₁.Perm l₂ →
      l₁.Pairwise keyLt → l₂.Pairwise keyLt → l₁ = l₂ := by
  intro l₁
  induction l₁ with
  | nil =>
    intro l₂ hp _ _
    exact (hp.nil_eq).symm ▸ rfl
  | cons a t ih =>
    intro l₂ hp h1 h2
    cases l₂ with
    | nil => exact absurd hp.symm.nil_eq (by simp)
    | cons b t₂ =>
      rw [List.pairwise_cons] at h1 h2
      have hab : a = b := by
        have ha2 : a ∈ b :: t₂ := hp.subset (List.mem_cons_self a t)
        have hb1 : b ∈ a :: t := hp.symm.subset (List.mem_cons_self b t₂)
        rcases List.mem_cons.mp ha2 with h | h
        · exact h
        · rcases List.mem_cons.mp hb1 with h' | h'
          · exact h'.symm
          · exact absurd (h1.1 b h') (fun hlt => keyLt_asymm' b a (h2.1 a h) hlt)
      subst hab
      have := ih (hp.cons_inv) h1.2 h2.2
      rw [this]

theorem sort_values_perm (l : List Registro) : (sort_values l).Perm l :=
  List.perm_insertionSort keyLe l

/-- The pruned sorted dedup output is strictly sorted by the key (keys are
pairwise distinct, so the sort order is strict). -/
theorem filter_sort_pairwise_keyLt (l : List Registro)
    (hnd : l.Pairwise (fun a b => keyOf a ≠ keyOf b)) (p : Registro → Bool) :
    ((sort_values l).filter p).Pairwise keyLt := by
  have hsorted : (sort_values l).Pairwise keyLe :=
    List.sorted_insertionSort keyLe l
  have hne : (sort_values l).Pairwise (fun a b => keyOf a ≠ keyOf b) :=
    (List.Perm.pairwise_iff (fun h => Ne.symm h) (sort_values_perm l)).mpr hnd
  exact List.Pairwise.sublist (List.filter_sublist _)
    ((hsorted.and hne).imp (fun h => keyLe_ne_keyLt h.1 h.2))

/-- A filtered list splits, up to permutation, along any second condition. -/
theorem filter_partition_perm {α : Type} (p c : α → Bool) (l : List α) :
    (l.filter p).Perm
      (l.filter (fun a => p a && c a) ++ l.filter (fun a => p a && !c a)) := by
  induction l with
  | nil => exact List.Perm.nil
  | cons a t ih =>
    rw [List.filter_cons, List.filter_cons, List.filter_cons]
    cases hp : p a with
    | false =>
      rw [if_neg (by simp), if_neg (by simp), if_neg (by simp)]
      exact ih
    | true =>
      cases hc : c a with
      | true =>
        rw [if_pos rfl, if_pos (by decide), if_neg (by decide), List.cons_append]
        exact ih.cons a
      | false =>
        rw [if_pos rfl, if_neg (by decide), if_pos (by decide)]
        exact (ih.cons a).trans List.perm_middle.symm

/-- Core of the idempotence argument: filtering-and-sorting the dedup of
`(already-merged result) ++ B` reproduces the already-merged result, as
soon as the merged side's key-filtered part coincides with `B`'s own
dedup. -/
theorem sort_filter_idem_core (M B : List Registro) (rec : Registro → Bool)
    (hMnd : M.Pairwise (fun a b => keyOf a ≠ keyOf b))
    (hMB : M.filter (fun r => hasKeyIn B r) = drop_duplicates_last B) :
    (sort_values (drop_duplicates_last
        ((sort_values M).filter rec ++ B))).filter rec =
      (sort_values M).filter rec := by
  have hDnd : ((sort_values M).filter rec).Pairwise
      (fun a b => keyOf a ≠ keyOf b) :=
    List.Pairwise.sublist (List.filter_sublist _)
      ((List.Perm.pairwise_iff (fun h => Ne.symm h) (sort_values_perm M)).mpr hMnd)
  have hdedup : drop_duplicates_last ((sort_values M).filter rec ++ B) =
      ((sort_values M).filter rec).filter (fun r => !hasKeyIn B r) ++
        drop_duplicates_last B := by
    rw [drop_duplicates_last_append, drop_duplicates_last_id hDnd]
  have eL : (((sort_values M).filter rec).filter
      (fun r => !hasKeyIn B r)).filter rec =
      (sort_values M).filter (fun r => rec r && !hasKeyIn B r) := by
    rw [List.filter_filter, List.filter_filter]
    apply List.filter_congr
    intro x _
    cases hasKeyIn B x <;> cases rec x <;> rfl
  have e6 : (drop_duplicates_last B).filter rec =
      M.filter (fun r => rec r && hasKeyIn B r) := by
    rw [← hMB, List.filter_filter]
  have epart := filter_partition_perm rec (fun r => !hasKeyIn B r) M
  have eRR : M.filter (fun a => rec a && !!hasKeyIn B a) =
      M.filter (fun r => rec r && hasKeyIn B r) := by
    apply List.filter_congr
    intro x _
    cases hasKeyIn B x <;> cases rec x <;> rfl
  have hperm : ((sort_values (drop_duplicates_last
      ((sort_values M).filter rec ++ B))).filter rec).Perm
      ((sort_values M).filter rec) := by
    refine ((sort_values_perm _).filter rec).trans ?_
    rw [hdedup, List.filter_append, eL, e6]
    refine List.Perm.trans
      (List.Perm.append ((sort_values_perm M).filter _) (List.Perm.refl _)) ?_
    refine List.Perm.trans ?_ ((sort_values_perm M).filter rec).symm
    rw [← eRR]
    exact epart.symm
  exact eq_of_perm_of_pairwise_keyLt hperm
    (filter_sort_pairwise_keyLt _ (drop_duplicates_last_pairwise _) rec)
    (filter_sort_pairwise_keyLt _ hMnd rec)

/-- The batch-key part of the dedup of `S ++ B` is exactly the dedup of
`B`. -/
theorem dedup_append_filter_hasKey (S B : List Registro) :
    (drop_duplicates_last (S ++ B)).filter (fun r => hasKeyIn B r) =
      drop_duplicates_last B := by
  rw [drop_duplicates_last_append, List.filter_append, List.filter_filter]
  have h1 : (drop_duplicates_last S).filter
      (fun a => hasKeyIn B a && !hasKeyIn B a) = [] := by
    have : (fun a : Registro => hasKeyIn B a && !hasKeyIn B a) =
        (fun _ => false) := by
      funext a
      cases hasKeyIn B a <;> rfl
    rw [this, List.filter_false]
  have h2 : (drop_duplicates_last B).filter (fun r => hasKeyIn B r) =
      drop_duplicates_last B := by
    rw [List.filter_eq_self]
    intro a ha
    exact hasKeyIn_iff.mpr ⟨a, mem_of_mem_drop_duplicates_last ha, rfl⟩
  rw [h1, h2, List.nil_append]

/-- C7, confirmed.  Idempotence of the storage merge: running
`actualizar_csv` a second time with the same new-record batch (at the same
current time) leaves the stored dataset unchanged. -/
theorem c7_actualizar_idempotent (S B : List Registro) (now : Int) :
    actualizar_csv (actualizar_csv S B now) B now = actualizar_csv S B now := by
  show (sort_values (drop_duplicates_last
      ((sort_values (drop_duplicates_last (S ++ B))).filter
        (fun r => decide (corte now ≤ r.dt)) ++ B))).filter
        (fun r => decide (corte now ≤ r.dt)) = _
  exact sort_filter_idem_core (drop_duplicates_last (S ++ B)) B _
    (drop_duplicates_last_pairwise _) (dedup_append_filter_hasKey S B)

/-- C8, confirmed.  Retention: every record persisted by a merge-and-prune
cycle has a datetime no older than the current time minus the
`DIAS_HISTORICO` (7 days) horizon. -/
theorem c8_retention {S B : List Registro} {now : Int} {r : Registro}
    (h : r ∈ actualizar_csv S B now) :
    now - DIAS_HISTORICO * 24 * 60 ≤ r.dt := by
  unfold actualizar_csv at h
  have := (List.mem_filter.mp h).2
  exact of_decide_eq_true this

/-- C8, witness: a fresh record at `now` survives and satisfies the
retention bound. -/
theorem c8_retention_witness :
    (0 : Int) - DIAS_HISTORICO * 24 * 60 ≤ (Registro.mk 0 "PMontt220" 1).dt := by
  refine @c8_retention [] [Registro.mk 0 "PMontt220" 1] 0 (Registro.mk 0 "PMontt220" 1) ?_
  have he : actualizar_csv [] [Registro.mk 0 "PMontt220" 1] 0 =
      [Registro.mk 0 "PMontt220" 1] := by
    with_unfolding_all rfl
  rw [he]
  simp

/-- The last record of `l` carrying the key `k`, if any: the `keep="last"`
winner for that key. -/
def lastOcc (l : List Registro) (k : Int × String) : Option Registro :=
  (l.filter (fun s => decide (keyOf s = k))).getLast?

/-- `keep="last"` semantics: a record survives the dedup exactly when it is
the last occurrence of its key. -/
theorem mem_dedup_iff_lastOcc {l : List Registro} {r : Registro} :
    r ∈ drop_duplicates_last l ↔ lastOcc l (keyOf r) = some r := by
  induction l with
  | nil => simp [drop_duplicates_last, lastOcc]
  | cons x xs ih =>
    unfold lastOcc at ih ⊢
    rw [List.filter_cons]
    by_cases hk : keyOf x = keyOf r
    · rw [if_pos (by simpa using hk)]
      cases hke : hasKeyIn xs x with
      | true =>
        obtain ⟨s, hs, hkey⟩ := hasKeyIn_iff.mp hke
        have hne : xs.filter (fun s => decide (keyOf s = keyOf r)) ≠ [] := by
          intro hnil
          rw [List.filter_eq_nil_iff] at hnil
          exact hnil s hs (by simpa using hkey.trans hk)
        unfold drop_duplicates_last
        rw [if_pos hke]
        cases hfil : xs.filter (fun s => decide (keyOf s = keyOf r)) with
        | nil => exact absurd hfil hne
        | cons y ys =>
          rw [List.getLast?_cons_cons]
          rw [hfil] at ih
          exact ih
      | false =>
        have hfil : xs.filter (fun s => decide (keyOf s = keyOf r)) = [] := by
          rw [List.filter_eq_nil_iff]
          intro s hs hds
          have : keyOf s = keyOf x := (of_decide_eq_true hds).trans hk.symm
          exact absurd (hasKeyIn_iff.mpr ⟨s, hs, this⟩) (by simp [hke])
        unfold drop_duplicates_last
        rw [if_neg (by simp [hke]), hfil]
        constructor
        · intro hmem
          rcases List.mem_cons.mp hmem with h | h
          · simp [h]
          · have hrxs : r ∈ xs := mem_of_mem_drop_duplicates_last h
            exact absurd (hasKeyIn_iff.mpr ⟨r, hrxs, hk.symm⟩) (by simp [hke])
        · intro hlast
          have : x = r := by simpa using hlast
          exact this ▸ List.mem_cons_self x _
    · rw [if_neg (by simpa using hk)]
      unfold drop_duplicates_last
      cases hke : hasKeyIn xs x with
      | true =>
        rw [if_pos rfl]
        exact ih
      | false =>
        rw [if_neg (by simp)]
        constructor
        · intro hmem
          rcases List.mem_cons.mp hmem with h | h
          · exact absurd (congrArg keyOf h).symm hk
          · exact ih.mp h
        · intro hlast
          exact List.mem_cons_of_mem x (ih.mpr hlast)

/-- When the batch contains a key, the last occurrence over
`existing ++ batch` is the batch's own last occurrence: a re-fetched key
overwrites the stored value. -/
theorem lastOcc_append_of_mem {S B : List Registro} {k : Int × String}
    (h : ∃ b ∈ B, keyOf b = k) : lastOcc (S ++ B) k = lastOcc B k := by
  unfold lastOcc
  rw [List.filter_append, List.getLast?_append]
  obtain ⟨b, hb, hkb⟩ := h
  have hne : B.filter (fun s => decide (keyOf s = k)) ≠ [] := by
    intro hnil
    rw [List.filter_eq_nil_iff] at hnil
    exact hnil b hb (by simpa using hkb)
  cases hfil : B.filter (fun s => decide (keyOf s = k)) with
  | nil => exact absurd hfil hne
  | cons y ys =>
    cases hys : (y :: ys).getLast? with
    | none => simp [List.getLast?_eq_none_iff] at hys
    | some z => rfl

/-- C9, confirmed.  `actualizar_csv` deduplicates `existing ++ new` on the
(datetime, station) key keeping exactly the last occurrence of each key (so
a re-fetched key takes the new batch's value), and the persisted dataset
has pairwise distinct keys — at most one record per key. -/
theorem c9_dedup_last (S B : List Registro) (now : Int) :
    (actualizar_csv S B now).Pairwise (fun a b => keyOf a ≠ keyOf b) ∧
    (∀ r : Registro, r ∈ drop_duplicates_last (S ++ B) ↔
        lastOcc (S ++ B) (keyOf r) = some r) ∧
    (∀ k : Int × String, (∃ b ∈ B, keyOf b = k) →
        lastOcc (S ++ B) k = lastOcc B k) := by
  refine ⟨?_, fun r => mem_dedup_iff_lastOcc, fun k h => lastOcc_append_of_mem h⟩
  unfold actualizar_csv
  exact List.Pairwise.sublist (List.filter_sublist _)
    ((List.Perm.pairwise_iff (fun h => Ne.symm h) (sort_values_perm _)).mpr
      (drop_duplicates_last_pairwise _))

/-- C9, witness: a re-fetch of key (0, PMontt220) with value 2 overwrites
the stored value 1 — the dedup keeps exactly the batch's record. -/
theorem c9_dedup_last_witness :
    lastOcc ([Registro.mk 0 "PMontt220" 1] ++ [Registro.mk 0 "PMontt220" 2])
        (keyOf (Registro.mk 0 "PMontt220" 2)) =
      some (Registro.mk 0 "PMontt220" 2) := by
  refine ((c9_dedup_last [Registro.mk 0 "PMontt220" 1]
    [Registro.mk 0 "PMontt220" 2] 0).2.1 _).mp ?_
  have he : drop_duplicates_last
      ([Registro.mk 0 "PMontt220" 1] ++ [Registro.mk 0 "PMontt220" 2]) =
      [Registro.mk 0 "PMontt220" 2] := by
    with_unfolding_all rfl
  rw [he]
  simp

/-! ### Fuzzy station matching (`encontrar_barra`, fetch_data.py 103-111)

`fetch_online` builds `barra_key` by applying `encontrar_barra` to each
row's `barra_info`, keeps the rows where it is not null, and maps the found
fragment through the `BARRAS` dictionary to obtain `barra_prog`.  Python's
`x in y` on strings is the contiguous-substring test, and `.upper()` is
modelled per character, both over the strings' character lists. -/

/-- The collector's fragment dictionary `BARRAS` (fetch_data.py 33-42), in
insertion order: fragment of `barra_info` to `llave_cmg`. -/
def BARRAS_FD : List (String × String) :=
  [("PUERTO MONTT", "PMontt220"),
   ("JAHUEL", "AJahuel220"),
   ("POLPAICO", "Polpaico220"),
   ("AZUCAR", "PAzucar220"),
   ("CARDONES", "Cardones220"),
   ("QUILLOTA", "Quillota220"),
   ("CRUCERO", "Crucero220"),
   ("CHARRUA", "Charrua220")]

/-- `needle in hay` for character lists: some contiguous run of `hay`
equals `needle`. -/
def strIn (needle : List Char) : List Char → Bool
  | [] => needle.isEmpty
  | c :: t => needle.isPrefixOf (c :: t) || strIn needle t

/-- `.upper()` on a string's characters. -/
def upperCL (s : String) : List Char := s.data.map Char.toUpper

/-- Python's `needle.upper() in hay.upper()`. -/
def subStrU (needle hay : String) : Bool := strIn (upperCL needle) (upperCL hay)

/-- fetch_data.py `encontrar_barra`, lines 103-108: upper-case the name,
walk the `BARRAS` fragments in dictionary (insertion) order, return the
first fragment whose upper-cased form occurs in the name; `None` when no
fragment matches. -/
def encontrar_barra (nombre_info : String) : Option String :=
  (BARRAS_FD.find? (fun kv => subStrU kv.1 nombre_info)).map (fun kv => kv.1)

/-- fetch_data.py lines 110-111 and 128: the rows kept by `fetch_online`,
as (barra_info, barra_key, barra_prog) triples — rows whose `barra_key` is
null are dropped, and `barra_prog` is the `BARRAS` value of the found
fragment. -/
def fetch_online_kept (infos : List String) : List (String × String × String) :=
  infos.filterMap (fun info => (encontrar_barra info).map
    (fun frag => (info, frag, (BARRAS_FD.lookup frag).getD "")))

theorem barras_fd_lookup : ∀ kv ∈ BARRAS_FD, BARRAS_FD.lookup kv.1 = some kv.2 := by
  decide

/-- `find?` returns the first satisfying element: the list splits at it and
everything before fails the test. -/
theorem find?_eq_some_split {α : Type} {p : α → Bool} {l : List α} {a : α}
    (h : l.find? p = some a) :
    p a = true ∧ ∃ l₁ l₂, l = l₁ ++ a :: l₂ ∧ ∀ x ∈ l₁, p x = false := by
  induction l with
  | nil => exact absurd h (by simp)
  | cons b t ih =>
    cases hb : p b with
    | true =>
      rw [List.find?_cons_of_pos t hb] at h
      have hab : b = a := by simpa using h
      subst hab
      exact ⟨hb, [], t, rfl, by simp⟩
    | false =>
      rw [List.find?_cons_of_neg t (by simp [hb])] at h
      obtain ⟨hpa, l₁, l₂, heq, hfail⟩ := ih h
      refine ⟨hpa, b :: l₁, l₂, by rw [heq, List.cons_append], ?_⟩
      intro x hx
      rcases List.mem_cons.mp hx with h' | h'
      · exact h' ▸ hb
      · exact hfail x h'

/-- C10, confirmed.  `encontrar_barra` returns the first fragment, in
`BARRAS` insertion order, whose upper-cased form is a substring of the
upper-cased input (all earlier fragments fail the test), and returns `None`
exactly when no fragment matches; consequently every row kept by
`fetch_online` carries a `barra_prog` equal to the `BARRAS` value of a
fragment contained in its `barra_info`. -/
theorem c10_encontrar_barra :
    (∀ s f, encontrar_barra s = some f →
      subStrU f s = true ∧
      ∃ v l₁ l₂, BARRAS_FD = l₁ ++ (f, v) :: l₂ ∧
        ∀ kv ∈ l₁, subStrU kv.1 s = false) ∧
    (∀ s, encontrar_barra s = none ↔
      ∀ kv ∈ BARRAS_FD, subStrU kv.1 s = false) ∧
    (∀ infos row, row ∈ fetch_online_kept infos →
      ∃ f v, (f, v) ∈ BARRAS_FD ∧
        subStrU f row.1 = true ∧ row.2.2 = v) := by
  refine ⟨?_, ?_, ?_⟩
  · intro s f h
    unfold encontrar_barra at h
    rw [Option.map_eq_some'] at h
    obtain ⟨kv, hfind, hfst⟩ := h
    obtain ⟨hp, l₁, l₂, heq, hfail⟩ := find?_eq_some_split hfind
    subst hfst
    exact ⟨hp, kv.2, l₁, l₂, by rw [heq], hfail⟩
  · intro s
    unfold encontrar_barra
    rw [Option.map_eq_none', List.find?_eq_none]
    constructor
    · intro h kv hkv
      have := h kv hkv
      simpa using this
    · intro h kv hkv
      simp [h kv hkv]
  · intro infos row hrow
    unfold fetch_online_kept at hrow
    rw [List.mem_filterMap] at hrow
    obtain ⟨info, -, hmap⟩ := hrow
    rw [Option.map_eq_some'] at hmap
    obtain ⟨frag, hfind, hrw⟩ := hmap
    unfold encontrar_barra at hfind
    rw [Option.map_eq_some'] at hfind
    obtain ⟨kv, hkvfind, hkvfst⟩ := hfind
    have hkvmem : kv ∈ BARRAS_FD := List.mem_of_find?_eq_some hkvfind
    have hp := List.find?_some hkvfind
    refine ⟨kv.1, kv.2,
      by rw [← Prod.mk.eta (p := kv)] at hkvmem; exact hkvmem, ?_, ?_⟩
    · rw [← hrw]
      exact hp
    · rw [← hrw]
      show (BARRAS_FD.lookup frag).getD "" = kv.2
      rw [← hkvfst, barras_fd_lookup kv hkvmem]
      rfl

/-- C10, witness: the input "BARRA Puerto Montt 220KV" is kept, matching
the fragment PUERTO MONTT and mapped to PMontt220. -/
theorem c10_encontrar_barra_witness :
    ∃ f v, (f, v) ∈ BARRAS_FD ∧
      subStrU f "BARRA Puerto Montt 220KV" = true ∧
      (BARRAS_FD.lookup "PUERTO MONTT").getD "" = v := by
  have hmem : ("BARRA Puerto Montt 220KV", "PUERTO MONTT",
      (BARRAS_FD.lookup "PUERTO MONTT").getD "") ∈
      fetch_online_kept ["BARRA Puerto Montt 220KV"] := by
    have he : fetch_online_kept ["BARRA Puerto Montt 220KV"] =
        [("BARRA Puerto Montt 220KV", "PUERTO MONTT",
          (BARRAS_FD.lookup "PUERTO MONTT").getD "")] := by
      decide
    rw [he]
    simp
  exact c10_encontrar_barra.2.2 ["BARRA Puerto Montt 220KV"] _ hmem
